import Mathlib

/-!
Verification of the MathPinGame code-breaking solver.

Codes are modelled as lists of natural-number digits (`List Nat`); the Python
strings of digit characters compare and iterate exactly like these lists.
Feedback triples are `Int × Int × Int`, matching Python's unbounded integers.
The unbounded `while True` loop of `solve` is modelled with explicit fuel:
`none` means the fuel was exhausted (the Python loop would still be running),
`some r` means the loop finished with result `r` within that many oracle
queries.
-/

/-- Strict lexicographic order on digit lists, mirroring Python's comparison
of digit strings (and of lists) of the same alphabet. -/
def lexLt : List Nat → List Nat → Bool
  | _, [] => false
  | [], _ :: _ => true
  | a :: as, b :: bs => a < b || (a == b && lexLt as bs)

/-- `generate_candidates` from `main.py`: every code of the given length over
digits 0–9, in lexicographic enumeration order (first digit slowest), exactly
as `itertools.product('0123456789', repeat=length)` yields them. -/
def generate_candidates : Nat → List (List Nat)
  | 0 => [[]]
  | n + 1 => (List.range 10).flatMap fun d => (generate_candidates n).map fun c => d :: c

/-- The `correct_position` count of `compute_feedback`: positions where the
zipped digits agree (`sum(s == g for s, g in zip(secret, guess))`). -/
def exactCount (secret guess : List Nat) : Nat :=
  (secret.zip guess).countP fun p => p.1 == p.2

/-- The `common` count of `compute_feedback`: the sum, over the distinct
digits of the secret (the keys of `Counter(secret)`), of the minimum of the
two occurrence counts. -/
def commonCount (secret guess : List Nat) : Nat :=
  (secret.dedup.map fun d => min (secret.count d) (guess.count d)).sum

/-- `compute_feedback` from `main.py`: returns
`(correct_position, common - correct_position, len(secret) - common)`
as a triple of (unbounded) integers. -/
def compute_feedback (secret guess : List Nat) : Int × Int × Int :=
  ((exactCount secret guess : Int),
    (commonCount secret guess : Int) - (exactCount secret guess : Int),
    (secret.length : Int) - (commonCount secret guess : Int))

/-- `filter_candidates` from `main.py`: keep, in order, the candidates whose
feedback against the guess equals the received feedback. -/
def filter_candidates (candidates : List (List Nat)) (guess : List Nat)
    (feedback : Int × Int × Int) : List (List Nat) :=
  candidates.filter fun cand => decide (compute_feedback cand guess = feedback)

/-- `initial_guess` from `main.py`: digit `i % 10` at position `i`. -/
def initial_guess (length : Nat) : List Nat :=
  (List.range length).map (· % 10)

/-- The key Python's `max` uses in `select_next_guess`:
`(len(set(c)), c)`, compared lexicographically. -/
def guessKeyLt (a b : List Nat) : Bool :=
  a.dedup.length < b.dedup.length ||
    (a.dedup.length == b.dedup.length && lexLt a b)

/-- `select_next_guess` from `main.py`: `max(candidates, key=lambda c:
(len(set(c)), c))`.  Python's `max` keeps the first element and replaces it
whenever a strictly greater key appears. -/
def select_next_guess : List (List Nat) → List Nat
  | [] => []
  | c :: rest => rest.foldl (fun best x => if guessKeyLt best x then x else best) c

/-- Result of one run of the solve loop: either a successful return carrying
the attempt counter and the final guess, or the `ValueError` raised when no
candidate matches the feedback. -/
inductive SolveRes where
  | ok (attempts : Nat) (guess : List Nat)
  | error
deriving DecidableEq, Repr

/-- The `while True` loop of `solve` in `main.py`, with explicit fuel (one
unit per oracle query).  `none` means the fuel ran out before the loop
finished. -/
def solveLoop (feedback_func : List Nat → Int × Int × Int) (length : Nat) :
    Nat → List (List Nat) → List Nat → Nat → Option SolveRes
  | 0, _, _, _ => none
  | fuel + 1, candidates, guess, attempts =>
    let fb := feedback_func guess
    if fb.1 = (length : Int) then some (.ok (attempts + 1) guess)
    else
      let candidates' := filter_candidates candidates guess fb
      if candidates' = [] then some .error
      else solveLoop feedback_func length fuel candidates'
        (select_next_guess candidates') (attempts + 1)

/-- What `solve` hands back to its caller: the bare attempt count when
`return_guess` is false, the `(attempts, guess)` pair when it is true, or the
propagated `ValueError`. -/
inductive SolveOut where
  | attemptsOnly (attempts : Nat)
  | withGuess (attempts : Nat) (guess : List Nat)
  | error
deriving DecidableEq, Repr

/-- `solve` from `main.py`: universe and candidates start as all codes of the
given length, the first guess is the fixed seed pattern, and the loop runs
with fuel `10 ^ length` (we prove below this is never exhausted). -/
def solve (length : Nat) (feedback_func : List Nat → Int × Int × Int)
    (return_guess : Bool) : Option SolveOut :=
  match solveLoop feedback_func length (10 ^ length) (generate_candidates length)
      (initial_guess length) 0 with
  | none => none
  | some .error => some .error
  | some (.ok a g) => some (if return_guess then .withGuess a g else .attemptsOnly a)

/-! ### Basic facts about the candidate universe -/

theorem mem_generate_candidates {n : Nat} {c : List Nat} :
    c ∈ generate_candidates n ↔ c.length = n ∧ ∀ d ∈ c, d < 10 := by
  induction n generalizing c with
  | zero =>
    simp [generate_candidates, List.length_eq_zero]
    rintro rfl; simp
  | succ n ih =>
    simp only [generate_candidates, List.mem_flatMap, List.mem_map, List.mem_range]
    constructor
    · rintro ⟨d, hd, c', hc', rfl⟩
      rcases ih.1 hc' with ⟨hl, hdig⟩
      refine ⟨by simp [hl], ?_⟩
      intro x hx
      rcases List.mem_cons.1 hx with rfl | hx
      · exact hd
      · exact hdig x hx
    · rintro ⟨hl, hdig⟩
      cases c with
      | nil => simp at hl
      | cons d c' =>
        exact ⟨d, hdig d (List.mem_cons_self _ _), c',
          ih.2 ⟨by simpa using hl, fun x hx => hdig x (List.mem_cons_of_mem _ hx)⟩, rfl⟩

theorem length_generate_candidates (n : Nat) :
    (generate_candidates n).length = 10 ^ n := by
  induction n with
  | zero => rfl
  | succ n ih =>
    simp only [generate_candidates, List.length_flatMap, List.map_map]
    have hconst : (List.length ∘ fun d => List.map (fun c => d :: c) (generate_candidates n)) =
        fun _ : Nat => 10 ^ n := by
      funext d
      simp [ih]
    rw [hconst, List.map_const', List.sum_replicate, smul_eq_mul, List.length_range,
      pow_succ, Nat.mul_comm]

theorem initial_guess_length (L : Nat) : (initial_guess L).length = L := by
  simp [initial_guess]

theorem initial_guess_mem (L : Nat) : initial_guess L ∈ generate_candidates L := by
  rw [mem_generate_candidates]
  refine ⟨initial_guess_length L, ?_⟩
  intro d hd
  simp only [initial_guess, List.mem_map, List.mem_range] at hd
  obtain ⟨i, _, rfl⟩ := hd
  exact Nat.mod_lt _ (by norm_num)

/-! ### Facts about the feedback evaluator -/

theorem exactCount_self (g : List Nat) : exactCount g g = g.length := by
  induction g with
  | nil => rfl
  | cons a t ih =>
    simp [exactCount, List.countP_cons] at ih ⊢
    omega

theorem commonCount_self (g : List Nat) : commonCount g g = g.length := by
  unfold commonCount
  simp only [min_self]
  exact List.sum_map_count_dedup_eq_length g

theorem compute_feedback_self (g : List Nat) :
    compute_feedback g g = ((g.length : Int), 0, 0) := by
  simp [compute_feedback, exactCount_self, commonCount_self]

theorem commonCount_eq_inter_card (s g : List Nat) :
    commonCount s g = Multiset.card ((s : Multiset Nat) ∩ (g : Multiset Nat)) := by
  classical
  have hsum : Multiset.card ((s : Multiset Nat) ∩ (g : Multiset Nat)) =
      ∑ a ∈ ((s : Multiset Nat) ∩ (g : Multiset Nat)).toFinset,
        Multiset.count a ((s : Multiset Nat) ∩ (g : Multiset Nat)) :=
    (Multiset.toFinset_sum_count_eq _).symm
  have hsubset : ((s : Multiset Nat) ∩ (g : Multiset Nat)).toFinset ⊆ s.toFinset := by
    intro a ha
    rw [Multiset.mem_toFinset] at ha
    rw [List.mem_toFinset]
    simpa using Multiset.mem_of_le (Multiset.inter_le_left _ _) ha
  have hzero : ∀ a ∈ s.toFinset, a ∉ ((s : Multiset Nat) ∩ (g : Multiset Nat)).toFinset →
      Multiset.count a ((s : Multiset Nat) ∩ (g : Multiset Nat)) = 0 := by
    intro a _ ha
    rw [Multiset.mem_toFinset] at ha
    exact Multiset.count_eq_zero.2 ha
  rw [hsum, Finset.sum_subset hsubset hzero]
  have hcounts : ∀ a ∈ s.toFinset,
      Multiset.count a ((s : Multiset Nat) ∩ (g : Multiset Nat)) =
        min (s.count a) (g.count a) := by
    intro a _
    rw [Multiset.count_inter]
    simp
  rw [Finset.sum_congr rfl hcounts]
  have hfin : s.toFinset = s.dedup.toFinset :=
    List.toFinset.ext_iff.2 fun x => (List.mem_dedup).symm
  rw [hfin, List.sum_toFinset _ (List.nodup_dedup s)]
  rfl

theorem map_fst_zip_sublist (s g : List Nat) :
    ((s.zip g).map Prod.fst).Sublist s := by
  induction s generalizing g with
  | nil => simp
  | cons a t ih =>
    cases g with
    | nil => simp
    | cons b u =>
      simpa using List.Sublist.cons₂ a (ih u)

theorem map_snd_zip_sublist (s g : List Nat) :
    ((s.zip g).map Prod.snd).Sublist g := by
  induction s generalizing g with
  | nil => simp
  | cons a t ih =>
    cases g with
    | nil => simp
    | cons b u =>
      simpa using List.Sublist.cons₂ b (ih u)

theorem map_fst_filter_eq_map_snd (l : List (Nat × Nat)) :
    ((l.filter fun p => p.1 == p.2).map Prod.fst) =
      ((l.filter fun p => p.1 == p.2).map Prod.snd) := by
  induction l with
  | nil => rfl
  | cons p t ih =>
    by_cases h : p.1 = p.2
    · simp [List.filter_cons, h, ih]
    · simp [List.filter_cons, h, ih]

theorem exactCount_le_commonCount (s g : List Nat) :
    exactCount s g ≤ commonCount s g := by
  classical
  set l := (s.zip g).filter fun p => p.1 == p.2 with hl
  have hcount : exactCount s g = l.length := by
    rw [exactCount, List.countP_eq_length_filter]
  have hfsts : ((l.map Prod.fst : List Nat) : Multiset Nat) ≤ (s : Multiset Nat) := by
    rw [Multiset.coe_le]
    exact (List.Sublist.map Prod.fst (List.filter_sublist _)).subperm.trans
      (map_fst_zip_sublist s g).subperm
  have hsnds : ((l.map Prod.fst : List Nat) : Multiset Nat) ≤ (g : Multiset Nat) := by
    rw [hl, map_fst_filter_eq_map_snd, Multiset.coe_le]
    exact (List.Sublist.map Prod.snd (List.filter_sublist _)).subperm.trans
      (map_snd_zip_sublist s g).subperm
  have hinter : ((l.map Prod.fst : List Nat) : Multiset Nat) ≤
      (s : Multiset Nat) ∩ (g : Multiset Nat) := le_inf hfsts hsnds
  have hcard := Multiset.card_le_card hinter
  simp only [Multiset.coe_card, List.length_map] at hcard
  rw [hcount, commonCount_eq_inter_card]
  exact hcard

theorem commonCount_le_length (s g : List Nat) :
    commonCount s g ≤ s.length := by
  rw [commonCount_eq_inter_card]
  have := Multiset.card_le_card (Multiset.inter_le_left (s : Multiset Nat) (g : Multiset Nat))
  simpa using this

theorem eq_of_zip_all_eq : ∀ (s g : List Nat), s.length = g.length →
    (∀ p ∈ s.zip g, p.1 = p.2) → s = g := by
  intro s
  induction s with
  | nil =>
    intro g hlen _
    exact (List.length_eq_zero.1 hlen.symm).symm
  | cons a t ih =>
    intro g hlen hall
    cases g with
    | nil => simp at hlen
    | cons b u =>
      have hab : a = b := hall (a, b) (by simp [List.zip_cons_cons])
      have htu : t = u := by
        refine ih u (by simpa using hlen) ?_
        intro p hp
        exact hall p (by simp [List.zip_cons_cons, hp])
      rw [hab, htu]

theorem guess_eq_of_exact_full {s g : List Nat} (hlen : s.length = g.length)
    (hfull : (compute_feedback s g).1 = (s.length : Int)) : g = s := by
  have hexact : exactCount s g = s.length := by
    have := hfull
    simp only [compute_feedback] at this
    exact_mod_cast this
  have hziplen : (s.zip g).length = s.length := by
    rw [List.length_zip, hlen, min_self]
  have hall : ∀ p ∈ s.zip g, (fun p : Nat × Nat => p.1 == p.2) p = true := by
    refine List.countP_eq_length.1 ?_
    rw [← hziplen] at hexact
    exact hexact
  refine (eq_of_zip_all_eq s g hlen ?_).symm
  intro p hp
  simpa using hall p hp

/-! ### Facts about candidate filtering -/

theorem mem_filter_candidates {candidates : List (List Nat)} {guess c : List Nat}
    {fb : Int × Int × Int} :
    c ∈ filter_candidates candidates guess fb ↔
      c ∈ candidates ∧ compute_feedback c guess = fb := by
  simp [filter_candidates, List.mem_filter]

theorem filter_candidates_sublist (candidates : List (List Nat)) (guess : List Nat)
    (fb : Int × Int × Int) :
    (filter_candidates candidates guess fb).Sublist candidates :=
  List.filter_sublist _

theorem length_filter_candidates_lt {candidates : List (List Nat)} {guess : List Nat}
    {fb : Int × Int × Int} (hg : guess ∈ candidates)
    (hfb : compute_feedback guess guess ≠ fb) :
    (filter_candidates candidates guess fb).length < candidates.length := by
  have hsub := filter_candidates_sublist candidates guess fb
  have hne : guess ∉ filter_candidates candidates guess fb := fun hmem =>
    hfb (mem_filter_candidates.1 hmem).2
  rcases Nat.lt_or_ge (filter_candidates candidates guess fb).length candidates.length
    with h | h
  · exact h
  · have heq : filter_candidates candidates guess fb = candidates :=
      hsub.eq_of_length (Nat.le_antisymm hsub.length_le h)
    rw [← heq] at hg
    exact absurd hg hne

/-! ### Facts about the shipped next-guess selector -/

theorem foldl_choice_mem {α : Type} (p : α → α → Bool) :
    ∀ (l : List α) (b : α),
      l.foldl (fun best x => if p best x then x else best) b = b ∨
        l.foldl (fun best x => if p best x then x else best) b ∈ l := by
  intro l
  induction l with
  | nil => intro b; exact Or.inl rfl
  | cons x t ih =>
    intro b
    simp only [List.foldl_cons]
    by_cases h : p b x
    · rw [if_pos h]
      rcases ih x with h1 | h1
      · rw [h1]
        exact Or.inr (List.mem_cons_self _ _)
      · exact Or.inr (List.mem_cons_of_mem _ h1)
    · rw [if_neg h]
      rcases ih b with h1 | h1
      · exact Or.inl h1
      · exact Or.inr (List.mem_cons_of_mem _ h1)

theorem select_next_guess_mem {candidates : List (List Nat)} (h : candidates ≠ []) :
    select_next_guess candidates ∈ candidates := by
  cases candidates with
  | nil => exact absurd rfl h
  | cons c rest =>
    rcases foldl_choice_mem guessKeyLt rest c with h1 | h1
    · rw [select_next_guess, h1]
      exact List.mem_cons_self _ _
    · rw [select_next_guess]
      exact List.mem_cons_of_mem _ h1

/-! ### Facts about the solve loop -/

theorem solveLoop_total (f : List Nat → Int × Int × Int) (L : Nat) :
    ∀ (fuel : Nat) (candidates : List (List Nat)) (guess : List Nat) (attempts : Nat),
      guess ∈ candidates → (∀ c ∈ candidates, c.length = L) →
      candidates.length ≤ fuel →
      ∃ r, solveLoop f L fuel candidates guess attempts = some r := by
  intro fuel
  induction fuel with
  | zero =>
    intro c g a hg _ hlen
    rw [Nat.le_zero, List.length_eq_zero] at hlen
    subst hlen
    simp at hg
  | succ fuel ih =>
    intro c g a hg hlenL hfuel
    simp only [solveLoop]
    by_cases hcp : (f g).1 = (L : Int)
    · exact ⟨_, by rw [if_pos hcp]⟩
    · rw [if_neg hcp]
      by_cases hempty : filter_candidates c g (f g) = []
      · exact ⟨_, by rw [if_pos hempty]⟩
      · rw [if_neg hempty]
        have hgl : g.length = L := hlenL g hg
        have hneq : compute_feedback g g ≠ f g := by
          intro he
          apply hcp
          rw [← he, compute_feedback_self, hgl]
        have hlt := length_filter_candidates_lt hg hneq
        exact ih _ _ _ (select_next_guess_mem hempty)
          (fun x hx => hlenL x ((filter_candidates_sublist c g (f g)).mem hx))
          (by omega)

theorem solveLoop_honest (s : List Nat) (L : Nat) (hs : s.length = L) :
    ∀ (fuel : Nat) (candidates : List (List Nat)) (guess : List Nat) (attempts : Nat),
      candidates.length ≤ fuel →
      s ∈ candidates → guess ∈ candidates →
      (∀ c ∈ candidates, c.length = L) →
      ∃ a, solveLoop (fun g => compute_feedback s g) L fuel candidates guess attempts =
          some (.ok a s) ∧ attempts < a := by
  intro fuel
  induction fuel with
  | zero =>
    intro c g a hfuel hsc hg hlenL
    rw [Nat.le_zero, List.length_eq_zero] at hfuel
    subst hfuel
    simp at hsc
  | succ fuel ih =>
    intro c g a hfuel hsc hg hlenL
    simp only [solveLoop]
    by_cases hcp : (compute_feedback s g).1 = (L : Int)
    · have hgs : g = s := guess_eq_of_exact_full (by rw [hs, hlenL g hg]) (by rw [hs]; exact hcp)
      refine ⟨a + 1, ?_, Nat.lt_succ_self a⟩
      rw [if_pos hcp, hgs]
    · rw [if_neg hcp]
      have hsmem : s ∈ filter_candidates c g (compute_feedback s g) :=
        mem_filter_candidates.2 ⟨hsc, rfl⟩
      have hempty : filter_candidates c g (compute_feedback s g) ≠ [] := by
        intro he
        rw [he] at hsmem
        simp at hsmem
      rw [if_neg hempty]
      have hgl : g.length = L := hlenL g hg
      have hneq : compute_feedback g g ≠ compute_feedback s g := by
        intro he
        apply hcp
        rw [← he, compute_feedback_self, hgl]
      have hlt := length_filter_candidates_lt hg hneq
      obtain ⟨a', ha', hlt'⟩ := ih _ _ (a + 1) (by omega) hsmem
        (select_next_guess_mem hempty)
        (fun x hx => hlenL x ((filter_candidates_sublist c g _).mem hx))
      exact ⟨a', ha', by omega⟩

theorem solveLoop_mono (f : List Nat → Int × Int × Int) (L : Nat) :
    ∀ (fuel fuel' : Nat) (candidates : List (List Nat)) (guess : List Nat)
      (attempts : Nat) (r : SolveRes), fuel ≤ fuel' →
      solveLoop f L fuel candidates guess attempts = some r →
      solveLoop f L fuel' candidates guess attempts = some r := by
  intro fuel
  induction fuel with
  | zero =>
    intro fuel' c g a r _ h
    simp [solveLoop] at h
  | succ fuel ih =>
    intro fuel' c g a r hle h
    obtain ⟨fuel'', rfl⟩ : ∃ k, fuel' = k + 1 :=
      ⟨fuel' - 1, by omega⟩
    simp only [solveLoop] at h ⊢
    by_cases hcp : (f g).1 = (L : Int)
    · rw [if_pos hcp] at h ⊢
      exact h
    · rw [if_neg hcp] at h ⊢
      by_cases hempty : filter_candidates c g (f g) = []
      · rw [if_pos hempty] at h ⊢
        exact h
      · rw [if_neg hempty] at h ⊢
        exact ih fuel'' _ _ _ _ (by omega) h

/-- The run of the solve loop from state `(candidates, guess)` eventually hits
a round whose filtering step empties the candidate set (after rounds that all
continue normally).  This is exactly the condition under which the Python
loop raises `ValueError("No possible pins match the provided feedback.")`. -/
inductive ErrorRun (f : List Nat → Int × Int × Int) (L : Nat) :
    List (List Nat) → List Nat → Prop
  | emptyFilter {c : List (List Nat)} {g : List Nat} :
      (f g).1 ≠ (L : Int) →
      filter_candidates c g (f g) = [] →
      ErrorRun f L c g
  | keepGoing {c : List (List Nat)} {g : List Nat} :
      (f g).1 ≠ (L : Int) →
      filter_candidates c g (f g) ≠ [] →
      ErrorRun f L (filter_candidates c g (f g))
        (select_next_guess (filter_candidates c g (f g))) →
      ErrorRun f L c g

theorem errorRun_of_solveLoop {f : List Nat → Int × Int × Int} {L : Nat} :
    ∀ {fuel : Nat} {candidates : List (List Nat)} {guess : List Nat} {attempts : Nat},
      solveLoop f L fuel candidates guess attempts = some .error →
      ErrorRun f L candidates guess := by
  intro fuel
  induction fuel with
  | zero =>
    intro c g a h
    simp [solveLoop] at h
  | succ fuel ih =>
    intro c g a h
    simp only [solveLoop] at h
    by_cases hcp : (f g).1 = (L : Int)
    · rw [if_pos hcp] at h
      simp at h
    · rw [if_neg hcp] at h
      by_cases hempty : filter_candidates c g (f g) = []
      · exact ErrorRun.emptyFilter hcp hempty
      · rw [if_neg hempty] at h
        exact ErrorRun.keepGoing hcp hempty (ih h)

theorem solveLoop_of_errorRun {f : List Nat → Int × Int × Int} {L : Nat}
    {candidates : List (List Nat)} {guess : List Nat}
    (h : ErrorRun f L candidates guess) :
    ∀ attempts : Nat, ∃ fuel : Nat,
      solveLoop f L fuel candidates guess attempts = some .error := by
  induction h with
  | emptyFilter hcp hempty =>
    intro a
    refine ⟨1, ?_⟩
    simp only [solveLoop]
    rw [if_neg hcp, if_pos hempty]
  | keepGoing hcp hempty _ ih =>
    intro a
    obtain ⟨fuel, hfuel⟩ := ih (a + 1)
    refine ⟨fuel + 1, ?_⟩
    simp only [solveLoop]
    rw [if_neg hcp, if_neg hempty]
    exact hfuel

/-! ### Claim theorems for the shipped `main.py` module -/

/-- Claim C1: for every secret digit string of length between 1 and 4, running
`solve` with the deterministic oracle that answers each guess `g` with
`compute_feedback secret g` (as the test helper `crack` does, passing
`return_guess=True`) terminates and returns the secret as the final code,
with an attempt count of at least 1. -/
theorem solve_roundtrip_c1 (s : List Nat) (h1 : 1 ≤ s.length) (h4 : s.length ≤ 4)
    (hd : ∀ d ∈ s, d < 10) :
    ∃ a, solve s.length (fun g => compute_feedback s g) true =
        some (.withGuess a s) ∧ 1 ≤ a := by
  obtain ⟨a, ha, hlt⟩ := solveLoop_honest s s.length rfl (10 ^ s.length)
    (generate_candidates s.length) (initial_guess s.length) 0
    (by rw [length_generate_candidates])
    (mem_generate_candidates.2 ⟨rfl, hd⟩)
    (initial_guess_mem _)
    (fun c hc => (mem_generate_candidates.1 hc).1)
  exact ⟨a, by simp [solve, ha], hlt⟩

/-- Witness for claim C1 at the spec's example secret `"0194"`. -/
theorem solve_roundtrip_c1_witness :
    ∃ a, solve 4 (fun g => compute_feedback [0, 1, 9, 4] g) true =
        some (.withGuess a [0, 1, 9, 4]) ∧ 1 ≤ a :=
  solve_roundtrip_c1 [0, 1, 9, 4] (by norm_num) (by norm_num) (by decide)

/-- Claim C2: for equal-length digit strings, `compute_feedback` returns a
triple of non-negative integers summing to the length, whose first component
counts index-wise equal digits and whose first two components sum to the
multiset-intersection size of the two digit multisets. -/
theorem compute_feedback_invariants_c2 (s g : List Nat) (L : Nat)
    (hs : s.length = L) (hg : g.length = L) :
    0 ≤ (compute_feedback s g).1 ∧ 0 ≤ (compute_feedback s g).2.1 ∧
    0 ≤ (compute_feedback s g).2.2 ∧
    (compute_feedback s g).1 + (compute_feedback s g).2.1 +
      (compute_feedback s g).2.2 = (L : Int) ∧
    (compute_feedback s g).1 = ((s.zip g).countP fun p => p.1 == p.2 : Nat) ∧
    (compute_feedback s g).1 + (compute_feedback s g).2.1 =
      (Multiset.card ((s : Multiset Nat) ∩ (g : Multiset Nat)) : Int) := by
  have h1 := exactCount_le_commonCount s g
  have h2 := commonCount_le_length s g
  have h3 := commonCount_eq_inter_card s g
  simp only [compute_feedback]
  refine ⟨?_, ?_, ?_, ?_, rfl, ?_⟩ <;> omega

/-- Witness for claim C2 at the spec's repeated-digit example
secret `"1122"`, guess `"1111"`. -/
theorem compute_feedback_invariants_c2_witness :
    0 ≤ (compute_feedback [1, 1, 2, 2] [1, 1, 1, 1]).1 ∧
    0 ≤ (compute_feedback [1, 1, 2, 2] [1, 1, 1, 1]).2.1 ∧
    0 ≤ (compute_feedback [1, 1, 2, 2] [1, 1, 1, 1]).2.2 ∧
    (compute_feedback [1, 1, 2, 2] [1, 1, 1, 1]).1 +
      (compute_feedback [1, 1, 2, 2] [1, 1, 1, 1]).2.1 +
      (compute_feedback [1, 1, 2, 2] [1, 1, 1, 1]).2.2 = (4 : Int) ∧
    (compute_feedback [1, 1, 2, 2] [1, 1, 1, 1]).1 =
      (([1, 1, 2, 2].zip [1, 1, 1, 1]).countP fun p => p.1 == p.2 : Nat) ∧
    (compute_feedback [1, 1, 2, 2] [1, 1, 1, 1]).1 +
      (compute_feedback [1, 1, 2, 2] [1, 1, 1, 1]).2.1 =
      (Multiset.card (([1, 1, 2, 2] : Multiset Nat) ∩ ([1, 1, 1, 1] : Multiset Nat)) : Int) :=
  compute_feedback_invariants_c2 [1, 1, 2, 2] [1, 1, 1, 1] 4 (by decide) (by decide)

/-- Claim C4: for every oracle returning integer triples, `solve` terminates
within at most `|universe| = 10^length` oracle queries (it returns a result
or raises within that fuel), because every non-final round strictly shrinks
the candidate list — the queried guess is always filtered out. -/
theorem solve_terminates_c4 (L : Nat) (f : List Nat → Int × Int × Int) :
    (∃ r, solve L f true = some r) ∧
    (generate_candidates L).length = 10 ^ L ∧
    (∀ (c : List (List Nat)) (g : List Nat), g ∈ c → (∀ x ∈ c, x.length = L) →
      (f g).1 ≠ (L : Int) →
      (filter_candidates c g (f g)).length < c.length) := by
  refine ⟨?_, length_generate_candidates L, ?_⟩
  · obtain ⟨r, hr⟩ := solveLoop_total f L (10 ^ L) (generate_candidates L)
      (initial_guess L) 0 (initial_guess_mem L)
      (fun c hc => (mem_generate_candidates.1 hc).1)
      (by rw [length_generate_candidates])
    cases r with
    | ok a g =>
      refine ⟨SolveOut.withGuess a g, ?_⟩
      simp [solve, hr]
    | error =>
      refine ⟨SolveOut.error, ?_⟩
      simp [solve, hr]
  · intro c g hg hlen hcp
    refine length_filter_candidates_lt hg ?_
    intro he
    apply hcp
    rw [← he, compute_feedback_self, hlen g hg]

/-- Witness for claim C4: with the constant oracle answering `(0, 0, 1)` at
length 1, `solve` finishes, and the first round's filtering strictly shrinks
the ten-element candidate list. -/
theorem solve_terminates_c4_witness :
    (∃ r, solve 1 (fun _ => ((0 : Int), 0, 1)) true = some r) ∧
    (filter_candidates (generate_candidates 1) [0] ((0 : Int), 0, 1)).length <
      (generate_candidates 1).length := by
  obtain ⟨h1, _, h3⟩ := solve_terminates_c4 1 (fun _ => ((0 : Int), 0, 1))
  exact ⟨h1, h3 (generate_candidates 1) [0] (by decide) (by decide) (by decide)⟩

/-- Claim C5: `solve` produces the inconsistent-feedback error (the Python
`ValueError`) exactly when, along the run, some round's filtering of the
candidate set by the received `(guess, feedback)` pair yields the empty list;
the error is the propagated result of the call and carries no attempt count
or code. -/
theorem solve_error_iff_c5 (L : Nat) (f : List Nat → Int × Int × Int)
    (return_guess : Bool) :
    solve L f return_guess = some SolveOut.error ↔
      ErrorRun f L (generate_candidates L) (initial_guess L) := by
  constructor
  · intro h
    rcases hscrut : solveLoop f L (10 ^ L) (generate_candidates L) (initial_guess L) 0
      with _ | r
    · simp [solve, hscrut] at h
    · cases r with
      | ok a g =>
        rw [solve, hscrut] at h
        cases return_guess <;> simp at h
      | error => exact errorRun_of_solveLoop hscrut
  · intro h
    obtain ⟨fuel, hfuel⟩ := solveLoop_of_errorRun h 0
    obtain ⟨r, hr⟩ := solveLoop_total f L (10 ^ L) (generate_candidates L)
      (initial_guess L) 0 (initial_guess_mem L)
      (fun c hc => (mem_generate_candidates.1 hc).1)
      (by rw [length_generate_candidates])
    have herr : solveLoop f L (max fuel (10 ^ L)) (generate_candidates L)
        (initial_guess L) 0 = some SolveRes.error :=
      solveLoop_mono f L fuel _ _ _ _ _ (Nat.le_max_left _ _) hfuel
    have hres : solveLoop f L (max fuel (10 ^ L)) (generate_candidates L)
        (initial_guess L) 0 = some r :=
      solveLoop_mono f L (10 ^ L) _ _ _ _ _ (Nat.le_max_right _ _) hr
    have : r = SolveRes.error := by
      rw [herr] at hres
      exact (Option.some_inj.1 hres).symm
    subst this
    simp [solve, hr]

/-- Claim C8: filtering is idempotent — filtering an already-filtered list by
the same `(guess, feedback)` returns the identical list — and each filtering
step is order-preserving (the output is a sublist of the input). -/
theorem filter_idempotent_c8 (candidates : List (List Nat)) (guess : List Nat)
    (feedback : Int × Int × Int) :
    filter_candidates (filter_candidates candidates guess feedback) guess feedback =
      filter_candidates candidates guess feedback ∧
    (filter_candidates candidates guess feedback).Sublist candidates := by
  refine ⟨?_, filter_candidates_sublist _ _ _⟩
  simp [filter_candidates, List.filter_filter]

/-- Claim C9 (implicit): `solve` terminates successfully as soon as the
oracle's reported exact count equals the length, without validating the other
two components: any oracle whose answer to the seed guess has first component
`length` makes `solve` return attempt count 1 with the fixed seed guess
`initial_guess length`, whose digit at position `i` is `i % 10`. -/
theorem solve_first_guess_c9 (L : Nat) (f : List Nat → Int × Int × Int)
    (h : (f (initial_guess L)).1 = (L : Int)) :
    solve L f true = some (.withGuess 1 (initial_guess L)) ∧
    solve L f false = some (.attemptsOnly 1) ∧
    ∀ i, i < L → (initial_guess L).get? i = some (i % 10) := by
  have hpos : ∃ k, 10 ^ L = k + 1 :=
    ⟨10 ^ L - 1, by have := Nat.pos_pow_of_pos L (by norm_num : 0 < 10); omega⟩
  obtain ⟨k, hk⟩ := hpos
  have hloop : solveLoop f L (10 ^ L) (generate_candidates L) (initial_guess L) 0 =
      some (.ok 1 (initial_guess L)) := by
    rw [hk]
    simp only [solveLoop]
    rw [if_pos h]
  refine ⟨by simp [solve, hloop], by simp [solve, hloop], ?_⟩
  intro i hi
  rw [initial_guess, List.get?_map, List.get?_range hi, Option.map_some']

/-- Witness for claim C9: the oracle constantly answering `(2, 5, 7)` — a
triple violating the sum invariant — still makes `solve` at length 2 stop at
once with the seed guess `[0, 1]`. -/
theorem solve_first_guess_c9_witness :
    solve 2 (fun _ => ((2 : Int), 5, 7)) true = some (.withGuess 1 [0, 1]) ∧
    solve 2 (fun _ => ((2 : Int), 5, 7)) false = some (.attemptsOnly 1) := by
  obtain ⟨h1, h2, _⟩ := solve_first_guess_c9 2 (fun _ => ((2 : Int), 5, 7)) (by decide)
  exact ⟨h1, h2⟩

/-- Claim C10 (implicit): the shipped `select_next_guess` always returns an
element of its `candidates` argument (whenever that list is non-empty, which
is the only situation in which `solve` calls it), so `solve` never plays a
non-candidate probe guess after the first round. -/
theorem select_in_candidates_c10 (candidates : List (List Nat))
    (h : candidates ≠ []) :
    select_next_guess candidates ∈ candidates :=
  select_next_guess_mem h

/-- Witness for claim C10 on a concrete two-element candidate list. -/
theorem select_in_candidates_c10_witness :
    select_next_guess [[1, 2], [3, 4]] ∈ [[1, 2], [3, 4]] :=
  select_in_candidates_c10 [[1, 2], [3, 4]] (by decide)

/-- Counterexample for claim C6: the claim says that on codes of unequal
length `compute_feedback` fails with an `InvalidInput` error rather than
returning a feedback triple.  The source contains no length check at all: on
the unequal-length pair secret `"12"`, guess `"123"` it happily returns the
triple `(2, 0, 0)` — even reporting every secret position as exact. -/
theorem compute_feedback_unequal_c6_counterexample :
    compute_feedback [1, 2] [1, 2, 3] = (2, 0, 0) := by decide

/-- Claim C6 amended: `compute_feedback` performs no length validation; on
unequal-length inputs it still returns a triple (no error is ever raised),
computed from the truncated positional zip and the full digit multisets, and
that triple still consists of non-negative components summing to the length
of the SECRET. -/
theorem compute_feedback_total_c6 (s g : List Nat) (h : s.length ≠ g.length) :
    0 ≤ (compute_feedback s g).1 ∧ 0 ≤ (compute_feedback s g).2.1 ∧
    0 ≤ (compute_feedback s g).2.2 ∧
    (compute_feedback s g).1 + (compute_feedback s g).2.1 +
      (compute_feedback s g).2.2 = (s.length : Int) := by
  have h1 := exactCount_le_commonCount s g
  have h2 := commonCount_le_length s g
  simp only [compute_feedback]
  refine ⟨?_, ?_, ?_, ?_⟩ <;> omega

/-- Witness for the amended claim C6 at the unequal-length pair
`("12", "123")`. -/
theorem compute_feedback_total_c6_witness :
    0 ≤ (compute_feedback [1, 2] [1, 2, 3]).1 ∧
    0 ≤ (compute_feedback [1, 2] [1, 2, 3]).2.1 ∧
    0 ≤ (compute_feedback [1, 2] [1, 2, 3]).2.2 ∧
    (compute_feedback [1, 2] [1, 2, 3]).1 + (compute_feedback [1, 2] [1, 2, 3]).2.1 +
      (compute_feedback [1, 2] [1, 2, 3]).2.2 = ((2 : Nat) : Int) :=
  compute_feedback_total_c6 [1, 2] [1, 2, 3] (by decide)

/-! ### The second solver version embedded in `test_solver.py`

`test_solver.py` contains, spliced into its middle, a complete second version
of the solver module (a minimax `select_next_guess` taking the universe and
an `optimal` flag, and a `solve` exposing that flag).  We embed it in the
`V2` namespace.  Its `generate_candidates`, `filter_candidates` (up to the
feedback function used) and `initial_guess` are textually identical to the
shipped ones, so those are shared. -/

namespace V2

/-- `compute_feedback` of the embedded version: same values as the shipped
one on digit codes, but computed with fixed ten-slot count arrays
(`secret_counts[ord(s) - 48]`), i.e. counts taken over digits 0–9. -/
def compute_feedback (secret guess : List Nat) : Int × Int × Int :=
  (((secret.zip guess).countP fun p => p.1 == p.2 : Nat),
    ((((List.range 10).map fun d => min (secret.count d) (guess.count d)).sum : Nat) : Int) -
      ((secret.zip guess).countP fun p => p.1 == p.2 : Nat),
    (secret.length : Int) -
      (((List.range 10).map fun d => min (secret.count d) (guess.count d)).sum : Nat))

/-- `filter_candidates` of the embedded version (identical text, but calling
the embedded `compute_feedback`). -/
def filter_candidates (candidates : List (List Nat)) (guess : List Nat)
    (feedback : Int × Int × Int) : List (List Nat) :=
  candidates.filter fun cand => decide (compute_feedback cand guess = feedback)

/-- `max(partitions.values())` where `partitions` counts the candidates by
the feedback they would produce against `guess`: the worst-case number of
candidates remaining after playing `guess`. -/
def score (candidates : List (List Nat)) (guess : List Nat) : Nat :=
  let fbs := candidates.map fun secret => compute_feedback secret guess
  (fbs.map fun f => fbs.count f).foldl max 0

/-- Python's extended slice `xs[::step]`: the elements at indices
`0, step, 2*step, …`. -/
def stride (step : Nat) (xs : List (List Nat)) : List (List Nat) :=
  (List.range xs.length).filterMap fun i => if i % step == 0 then xs.get? i else none

/-- The pool of guesses the embedded `select_next_guess` evaluates: the whole
universe when `optimal` is set (threshold `float("inf")`) or when
`len(candidates) * len(universe) <= 2_000_000`; otherwise an evenly strided
sample of up to 100 candidates plus the first up-to-100 non-candidate codes
of the universe. -/
def pool (candidates univ : List (List Nat)) (optimal : Bool) :
    List (List Nat) :=
  if optimal = true ∨ candidates.length * univ.length ≤ 2000000 then univ
  else
    (stride (max 1 (candidates.length / 100)) candidates).take 100 ++
      (univ.filter fun code => !decide (code ∈ candidates)).take 100

/-- The running state of the selection loop: `best_guess`, `best_score`
(`none` is the initial `float("inf")`), `best_is_candidate`. -/
structure Sel where
  bestGuess : List Nat
  bestScore : Option Nat
  bestIsCandidate : Bool

/-- The update condition of the selection loop, exactly as written:
strictly smaller score, or equal score and newly-a-candidate, or equal score,
equal candidate status and lexicographically smaller guess. -/
def betterB (candidates : List (List Nat)) (st : Sel) (guess : List Nat) : Bool :=
  match st.bestScore with
  | none => true
  | some bs =>
      decide (score candidates guess < bs) ||
      (decide (score candidates guess = bs) && decide (guess ∈ candidates) &&
        !st.bestIsCandidate) ||
      (decide (score candidates guess = bs) &&
        (decide (guess ∈ candidates) == st.bestIsCandidate) && lexLt guess st.bestGuess)

/-- One iteration of the embedded selection loop. -/
def update (candidates : List (List Nat)) (st : Sel) (guess : List Nat) : Sel :=
  if betterB candidates st guess then
    ⟨guess, some (score candidates guess), decide (guess ∈ candidates)⟩
  else st

/-- `select_next_guess` of the embedded version: single-candidate shortcut,
then the fold over the pool starting from `pool[0]` with score infinity. -/
def select_next_guess (candidates univ : List (List Nat)) (optimal : Bool) :
    List Nat :=
  if candidates.length == 1 then candidates.headD []
  else
    let p := pool candidates univ optimal
    (p.foldl (update candidates)
      ⟨p.headD [], none, decide (p.headD [] ∈ candidates)⟩).bestGuess

/-- The `while True` loop of the embedded `solve`, with explicit fuel. -/
def solveLoop (f : List Nat → Int × Int × Int) (L : Nat)
    (all_codes : List (List Nat)) (optimal : Bool) :
    Nat → List (List Nat) → List Nat → Nat → Option SolveRes
  | 0, _, _, _ => none
  | fuel + 1, candidates, guess, attempts =>
    let fb := f guess
    if fb.1 = (L : Int) then some (.ok (attempts + 1) guess)
    else
      let candidates' := filter_candidates candidates guess fb
      if candidates' = [] then some .error
      else solveLoop f L all_codes optimal fuel candidates'
        (select_next_guess candidates' all_codes optimal) (attempts + 1)

/-- The embedded `solve`: signature
`solve(length, feedback_func, return_guess=False, *, optimal=False)`;
returns the attempt count alone, or the `(attempts, guess)` pair when
`return_guess` is set. -/
def solve (L : Nat) (f : List Nat → Int × Int × Int)
    (return_guess optimal : Bool) : Option SolveOut :=
  match solveLoop f L (generate_candidates L) optimal (10 ^ L)
      (generate_candidates L) (initial_guess L) 0 with
  | none => none
  | some .error => some .error
  | some (.ok a g) => some (if return_guess then .withGuess a g else .attemptsOnly a)

/-- The selection key the loop effectively minimises: the worst-case score,
then candidate status (candidates first), then the guess lexicographically. -/
def selKey (candidates : List (List Nat)) (g : List Nat) : Nat × Nat × List Nat :=
  (score candidates g, if g ∈ candidates then 0 else 1, g)

/-- Strict lexicographic comparison of selection keys. -/
def keyLt (a b : Nat × Nat × List Nat) : Prop :=
  a.1 < b.1 ∨ (a.1 = b.1 ∧ (a.2.1 < b.2.1 ∨ (a.2.1 = b.2.1 ∧ lexLt a.2.2 b.2.2 = true)))

instance keyLt.decidable (a b : Nat × Nat × List Nat) : Decidable (keyLt a b) := by
  unfold keyLt
  infer_instance

end V2

/-! ### The heuristic selector as the spec describes it (for claim C3)

Modelled from the spec's words, §4.3 heuristic mode: "For each pool member
`g`, partition `candidates` by the feedback each would produce against `g`;
score `g` by the sum of squared partition sizes divided by `|candidates|` …
Choose the minimum score; ties broken by lexicographically smallest code
string", with the single-candidate shortcut and the same pool construction.
This definition follows the spec, not the source, and is compared against
the source's `V2.select_next_guess`. -/

/-- Sum of squared partition sizes when `candidates` is partitioned by the
feedback each candidate would produce against `g` (the numerator of the
spec's heuristic score). -/
def specScoreNum (candidates : List (List Nat)) (g : List Nat) : Nat :=
  let fbs := candidates.map fun secret => V2.compute_feedback secret g
  (fbs.dedup.map fun f => (fbs.count f) ^ 2).sum

/-- The spec's heuristic score: sum of squared partition sizes divided by the
number of candidates (a rational number). -/
def specHeuristicScore (candidates : List (List Nat)) (g : List Nat) : ℚ :=
  (specScoreNum candidates g : ℚ) / (candidates.length : ℚ)

/-- The guess selector exactly as the spec's heuristic-mode bullet describes
it: minimum spec score over the pool, ties broken by the lexicographically
smallest code string. -/
def specHeuristicSelect (candidates univ : List (List Nat)) : List Nat :=
  if candidates.length == 1 then candidates.headD []
  else
    let p := V2.pool candidates univ false
    p.foldl (fun best g =>
      if specHeuristicScore candidates g < specHeuristicScore candidates best ∨
          (specHeuristicScore candidates g = specHeuristicScore candidates best ∧
            lexLt g best = true)
      then g else best) (p.headD [])

/-- The same selector with the score comparisons carried out on the integer
numerators (legitimate because all scores share the positive denominator
`|candidates|`); used to evaluate `specHeuristicSelect` by `decide`. -/
def specHeuristicSelectNat (candidates univ : List (List Nat)) : List Nat :=
  if candidates.length == 1 then candidates.headD []
  else
    let p := V2.pool candidates univ false
    p.foldl (fun best g =>
      if specScoreNum candidates g < specScoreNum candidates best ∨
          (specScoreNum candidates g = specScoreNum candidates best ∧
            lexLt g best = true)
      then g else best) (p.headD [])

theorem div_eq_div_same_iff {a b c : ℚ} (hc : c ≠ 0) : a / c = b / c ↔ a = b := by
  constructor
  · intro h
    have h2 := congrArg (fun x => x * c) h
    simpa [div_mul_cancel₀, hc] using h2
  · intro h
    rw [h]

theorem specHeuristicSelect_eq_nat (candidates univ : List (List Nat))
    (h : candidates ≠ []) :
    specHeuristicSelect candidates univ = specHeuristicSelectNat candidates univ := by
  have hN : (0 : ℚ) < (candidates.length : ℚ) := by
    have : 0 < candidates.length := List.length_pos.2 h
    exact_mod_cast this
  have hfun : (fun (best g : List Nat) =>
      if specHeuristicScore candidates g < specHeuristicScore candidates best ∨
          (specHeuristicScore candidates g = specHeuristicScore candidates best ∧
            lexLt g best = true)
      then g else best) =
      (fun (best g : List Nat) =>
      if specScoreNum candidates g < specScoreNum candidates best ∨
          (specScoreNum candidates g = specScoreNum candidates best ∧
            lexLt g best = true)
      then g else best) := by
    funext best g
    have hlt : specHeuristicScore candidates g < specHeuristicScore candidates best ↔
        specScoreNum candidates g < specScoreNum candidates best := by
      rw [specHeuristicScore, specHeuristicScore, div_lt_div_iff_of_pos_right hN,
        Nat.cast_lt]
    have heq : specHeuristicScore candidates g = specHeuristicScore candidates best ↔
        specScoreNum candidates g = specScoreNum candidates best := by
      rw [specHeuristicScore, specHeuristicScore, div_eq_div_same_iff (ne_of_gt hN),
        Nat.cast_inj]
    rw [if_congr (or_congr hlt (and_congr heq Iff.rfl)) rfl rfl]
  rw [specHeuristicSelect, specHeuristicSelectNat, hfun]

/-! ### Ordering facts used to characterise the embedded selector -/

theorem lexLt_irrefl (a : List Nat) : lexLt a a = false := by
  induction a with
  | nil => rfl
  | cons x t ih => simp [lexLt, ih]

theorem lexLt_trans : ∀ {a b c : List Nat},
    lexLt a b = true → lexLt b c = true → lexLt a c = true := by
  intro a
  induction a with
  | nil =>
    intro b c h1 h2
    cases b with
    | nil => exact h2
    | cons y bs =>
      cases c with
      | nil => simp [lexLt] at h2
      | cons z cs => rfl
  | cons x as ih =>
    intro b c h1 h2
    cases b with
    | nil => simp [lexLt] at h1
    | cons y bs =>
      cases c with
      | nil => simp [lexLt] at h2
      | cons z cs =>
        simp only [lexLt, Bool.or_eq_true, Bool.and_eq_true, decide_eq_true_iff,
          beq_iff_eq] at h1 h2 ⊢
        rcases h1 with h1 | ⟨h1e, h1r⟩ <;> rcases h2 with h2 | ⟨h2e, h2r⟩
        · exact Or.inl (by omega)
        · exact Or.inl (by omega)
        · exact Or.inl (by omega)
        · exact Or.inr ⟨by omega, ih h1r h2r⟩

theorem lexLt_eq_of_not : ∀ {a b : List Nat},
    lexLt a b = false → lexLt b a = false → a = b := by
  intro a
  induction a with
  | nil =>
    intro b h1 _
    cases b with
    | nil => rfl
    | cons y bs => simp [lexLt] at h1
  | cons x as ih =>
    intro b h1 h2
    cases b with
    | nil => simp [lexLt] at h2
    | cons y bs =>
      simp only [lexLt, Bool.or_eq_false_iff, Bool.and_eq_false_iff,
        decide_eq_false_iff_not, beq_eq_false_iff_ne, ne_eq] at h1 h2
      obtain ⟨h1a, h1b⟩ := h1
      obtain ⟨h2a, h2b⟩ := h2
      have hxy : x = y := by omega
      subst hxy
      rcases h1b with h | h
      · exact absurd rfl h
      · rcases h2b with h' | h'
        · exact absurd rfl h'
        · rw [ih h h']

theorem keyLt_irrefl (a : Nat × Nat × List Nat) : ¬ V2.keyLt a a := by
  simp [V2.keyLt, lexLt_irrefl]

theorem keyLt_trans {a b c : Nat × Nat × List Nat} :
    V2.keyLt a b → V2.keyLt b c → V2.keyLt a c := by
  intro h1 h2
  simp only [V2.keyLt] at h1 h2 ⊢
  rcases h1 with h1 | ⟨h1e, h1r⟩ <;> rcases h2 with h2 | ⟨h2e, h2r⟩
  · exact Or.inl (by omega)
  · exact Or.inl (by omega)
  · exact Or.inl (by omega)
  · refine Or.inr ⟨by omega, ?_⟩
    rcases h1r with h1r | ⟨h1re, h1rl⟩ <;> rcases h2r with h2r | ⟨h2re, h2rl⟩
    · exact Or.inl (by omega)
    · exact Or.inl (by omega)
    · exact Or.inl (by omega)
    · exact Or.inr ⟨by omega, lexLt_trans h1rl h2rl⟩

theorem keyLt_eq_of_not {a b : Nat × Nat × List Nat} :
    ¬ V2.keyLt a b → ¬ V2.keyLt b a → a = b := by
  intro h1 h2
  simp only [V2.keyLt, not_or, not_and, not_lt] at h1 h2
  obtain ⟨h1a, h1b⟩ := h1
  obtain ⟨h2a, h2b⟩ := h2
  have hfst : a.1 = b.1 := by omega
  have h1c := h1b hfst
  have h2c := h2b hfst.symm
  simp only [not_or, not_and, not_lt] at h1c h2c
  obtain ⟨h1d, h1e⟩ := h1c
  obtain ⟨h2d, h2e⟩ := h2c
  have hsnd : a.2.1 = b.2.1 := by omega
  have h1f := h1e hsnd
  have h2f := h2e hsnd.symm
  rw [Bool.not_eq_true] at h1f h2f
  have hlist : a.2.2 = b.2.2 := lexLt_eq_of_not h1f h2f
  exact Prod.ext hfst (Prod.ext hsnd hlist)

/-- The fold `best = if lt x best then x else best` over a list computes a
minimum: the result is the seed or a list element, is never beaten by the
seed, and is never beaten by any list element. -/
theorem foldl_min_spec {α : Type} (lt : α → α → Prop) [DecidableRel lt]
    (hirr : ∀ a, ¬ lt a a)
    (htrans : ∀ {a b c}, lt a b → lt b c → lt a c)
    (hconn : ∀ {a b}, ¬ lt a b → ¬ lt b a → a = b) :
    ∀ (l : List α) (b : α),
      ((l.foldl (fun best x => if lt x best then x else best) b) = b ∨
        (l.foldl (fun best x => if lt x best then x else best) b) ∈ l) ∧
      ¬ lt b (l.foldl (fun best x => if lt x best then x else best) b) ∧
      ∀ x ∈ l, ¬ lt x (l.foldl (fun best x => if lt x best then x else best) b) := by
  intro l
  induction l with
  | nil =>
    intro b
    exact ⟨Or.inl rfl, hirr b, by simp⟩
  | cons x t ih =>
    intro b
    simp only [List.foldl_cons]
    by_cases hx : lt x b
    · rw [if_pos hx]
      obtain ⟨hmem, hseed, hall⟩ := ih x
      refine ⟨?_, ?_, ?_⟩
      · rcases hmem with h | h
        · exact Or.inr (by rw [h]; exact List.mem_cons_self _ _)
        · exact Or.inr (List.mem_cons_of_mem _ h)
      · intro hb
        exact hseed (htrans hx hb)
      · intro y hy
        rcases List.mem_cons.1 hy with rfl | hy
        · exact hseed
        · exact hall y hy
    · rw [if_neg hx]
      obtain ⟨hmem, hseed, hall⟩ := ih b
      refine ⟨?_, hseed, ?_⟩
      · rcases hmem with h | h
        · exact Or.inl h
        · exact Or.inr (List.mem_cons_of_mem _ h)
      · intro y hy
        rcases List.mem_cons.1 hy with rfl | hy
        · intro hyr
          by_cases hrb : lt (t.foldl (fun best x => if lt x best then x else best) b) b
          · exact hx (htrans hyr hrb)
          · have heq : b = t.foldl (fun best x => if lt x best then x else best) b :=
              hconn hseed hrb
            rw [← heq] at hyr
            exact hx hyr
        · exact hall y hy

theorem betterB_wf (candidates : List (List Nat)) (b g : List Nat) :
    V2.betterB candidates ⟨b, some (V2.score candidates b), decide (b ∈ candidates)⟩ g =
      decide (V2.keyLt (V2.selKey candidates g) (V2.selKey candidates b)) := by
  simp only [V2.betterB, V2.selKey, V2.keyLt]
  by_cases h1 : g ∈ candidates <;> by_cases h2 : b ∈ candidates <;>
    by_cases h3 : V2.score candidates g < V2.score candidates b <;>
    by_cases h4 : V2.score candidates g = V2.score candidates b <;>
    by_cases h5 : lexLt g b <;>
    simp [h1, h2, h3, h4, h5]

theorem foldl_update_wf (candidates : List (List Nat)) :
    ∀ (l : List (List Nat)) (b : List Nat),
      (l.foldl (V2.update candidates)
        ⟨b, some (V2.score candidates b), decide (b ∈ candidates)⟩).bestGuess =
      l.foldl (fun best x =>
        if V2.keyLt (V2.selKey candidates x) (V2.selKey candidates best) then x
        else best) b := by
  intro l
  induction l with
  | nil => intro b; rfl
  | cons x t ih =>
    intro b
    simp only [List.foldl_cons, V2.update, betterB_wf]
    by_cases hk : V2.keyLt (V2.selKey candidates x) (V2.selKey candidates b)
    · rw [if_pos (by simpa using hk), if_pos hk]
      exact ih x
    · rw [if_neg (by simpa using hk), if_neg hk]
      exact ih b

theorem select_minimax (candidates univ : List (List Nat)) (optimal : Bool)
    (h2 : candidates.length ≠ 1) (hp : V2.pool candidates univ optimal ≠ []) :
    V2.select_next_guess candidates univ optimal ∈ V2.pool candidates univ optimal ∧
    ∀ g ∈ V2.pool candidates univ optimal,
      ¬ V2.keyLt (V2.selKey candidates g)
        (V2.selKey candidates (V2.select_next_guess candidates univ optimal)) := by
  obtain ⟨p0, rest, hpool⟩ : ∃ p0 rest,
      V2.pool candidates univ optimal = p0 :: rest := by
    rcases hpl : V2.pool candidates univ optimal with _ | ⟨a, b⟩
    · exact absurd hpl hp
    · exact ⟨a, b, rfl⟩
  have hfirst : V2.update candidates ⟨p0, none, decide (p0 ∈ candidates)⟩ p0 =
      ⟨p0, some (V2.score candidates p0), decide (p0 ∈ candidates)⟩ := by
    simp [V2.update, V2.betterB]
  have hsel : V2.select_next_guess candidates univ optimal =
      rest.foldl (fun best x =>
        if V2.keyLt (V2.selKey candidates x) (V2.selKey candidates best) then x
        else best) p0 := by
    rw [V2.select_next_guess, if_neg (by simpa using h2), hpool]
    simp only [List.headD_cons, List.foldl_cons, hfirst]
    exact foldl_update_wf candidates rest p0
  obtain ⟨hmem, hseed, hall⟩ := @foldl_min_spec (List Nat)
    (fun a b : List Nat => V2.keyLt (V2.selKey candidates a) (V2.selKey candidates b))
    (fun _ _ => V2.keyLt.decidable _ _)
    (fun _ => keyLt_irrefl _)
    (fun {_ _ _} hab hbc => keyLt_trans hab hbc)
    (fun {_ _} hna hnb => congrArg (fun k => k.2.2) (keyLt_eq_of_not hna hnb))
    rest p0
  rw [hsel, hpool]
  constructor
  · rcases hmem with h | h
    · rw [h]
      exact List.mem_cons_self _ _
    · exact List.mem_cons_of_mem _ h
  · intro g hg
    rcases List.mem_cons.1 hg with rfl | hg
    · exact hseed
    · exact hall g hg

/-- Claim C3 (amended): in heuristic (default) mode the embedded selector
returns the sole candidate immediately when exactly one remains; otherwise it
returns the pool member minimising the key (worst-case partition size of the
candidate set under the feedback partition, then non-candidate status, then
the code itself lexicographically) — i.e. minimum MAXIMUM partition size,
ties broken first in favour of guesses still in the candidate set and then
by lexicographically smallest code, not minimum sum of squared partition
sizes with plain lexicographic tie-breaking as claimed. -/
theorem select_heuristic_c3 (candidates univ : List (List Nat)) :
    (∀ c, candidates = [c] → V2.select_next_guess candidates univ false = c) ∧
    (candidates.length ≠ 1 → V2.pool candidates univ false ≠ [] →
      V2.select_next_guess candidates univ false ∈ V2.pool candidates univ false ∧
      ∀ g ∈ V2.pool candidates univ false,
        ¬ V2.keyLt (V2.selKey candidates g)
          (V2.selKey candidates (V2.select_next_guess candidates univ false))) := by
  constructor
  · rintro c rfl
    rfl
  · intro h2 hp
    exact select_minimax candidates univ false h2 hp

/-- Counterexample for claim C3 as stated: on candidates `{"12", "21"}` with
universe `{"01", "12", "21"}` (pool = universe), the shipped selector returns
`"12"` — preferring a candidate at equal score — while the selector the spec
describes (minimum sum of squared partition sizes over the candidate count,
ties to the lexicographically smallest code) returns `"01"`. -/
theorem select_heuristic_c3_counterexample :
    V2.select_next_guess [[1, 2], [2, 1]] [[0, 1], [1, 2], [2, 1]] false ≠
      specHeuristicSelect [[1, 2], [2, 1]] [[0, 1], [1, 2], [2, 1]] := by
  rw [specHeuristicSelect_eq_nat _ _ (by decide)]
  decide

/-- Witness for the amended claim C3: on the counterexample's input the
selected guess is a pool member and the pool member `"01"` does not beat
it. -/
theorem select_heuristic_c3_witness :
    V2.select_next_guess [[1, 2], [2, 1]] [[0, 1], [1, 2], [2, 1]] false ∈
      V2.pool [[1, 2], [2, 1]] [[0, 1], [1, 2], [2, 1]] false ∧
    ¬ V2.keyLt (V2.selKey [[1, 2], [2, 1]] [0, 1])
      (V2.selKey [[1, 2], [2, 1]]
        (V2.select_next_guess [[1, 2], [2, 1]] [[0, 1], [1, 2], [2, 1]] false)) := by
  obtain ⟨hmem, hmin⟩ :=
    (select_heuristic_c3 [[1, 2], [2, 1]] [[0, 1], [1, 2], [2, 1]]).2
      (by decide) (by decide)
  exact ⟨hmem, hmin [0, 1] (by decide)⟩

/-- Claim C7 (amended): the embedded `solve` takes a length, an oracle, a
`return_guess` flag and an `optimal` flag, and on success returns the
`(attemptCount, finalCode)` pair only when `return_guess` is true; with the
default `return_guess=False` it returns the bare attempt count, never a
pair. -/
theorem solve_entry_c7 (L : Nat) (f : List Nat → Int × Int × Int)
    (optimal : Bool) :
    (∀ a g, V2.solve L f true optimal = some (.withGuess a g) →
      V2.solve L f false optimal = some (.attemptsOnly a)) ∧
    (∀ a, V2.solve L f false optimal = some (.attemptsOnly a) →
      ∃ g, V2.solve L f true optimal = some (.withGuess a g)) ∧
    (∀ a g, V2.solve L f false optimal ≠ some (.withGuess a g)) := by
  unfold V2.solve
  rcases hscrut : V2.solveLoop f L (generate_candidates L) optimal (10 ^ L)
      (generate_candidates L) (initial_guess L) 0 with _ | r
  · simp
  · cases r with
    | ok a g => simp
    | error => simp

/-- Counterexample for claim C7 as stated: a successful run of the embedded
`solve` with the default `return_guess=False` (here: length 1, deterministic
oracle for secret `"3"`, heuristic mode) returns the bare attempt count 4,
not an `(attemptCount, finalCode)` pair. -/
theorem solve_entry_c7_counterexample :
    V2.solve 1 (fun g => V2.compute_feedback [3] g) false false =
      some (SolveOut.attemptsOnly 4) := by rfl

/-- Witness for the amended claim C7: the same run with `return_guess=True`
does return the pair. -/
theorem solve_entry_c7_witness :
    ∃ g, V2.solve 1 (fun g => V2.compute_feedback [3] g) true false =
      some (SolveOut.withGuess 4 g) :=
  (solve_entry_c7 1 (fun g => V2.compute_feedback [3] g) false).2.1 4 (by rfl)
